import Mathlib

/-!
# Verification of the scrabble-move-generator repository

This file shallowly embeds the Go move generator of the repository
(`main.go`, self-contained GADDAG implementation, and the request handler
of `main-for-scrabble.go`) into Lean and settles the frozen claims about it.

Conventions of the embedding:
* Go strings that always hold a single symbol (board cells, rack tiles,
  GADDAG edge labels) are embedded as `Char`; the empty cell string `""`
  becomes `none` in `Option Char`.  Words are `List Char`.
* The board produced by `normalizeBoard` is a total function
  `Nat → Nat → Option Char`; the Go code only ever indexes rows and
  columns below 15.
* Go maps used purely as key-value stores (`GADDAGNode.Children`, the
  `moveSet` deduplication set) are embedded as association lists / key
  lists; the Go code never iterates over these maps in a way that affects
  its output, so the association-list embedding is faithful.
* Go's `int` values that are always non-negative here (scores,
  multipliers, coordinates) are embedded as `Nat`; the handler's `TopN`
  field, which is compared against `<= 0`, is embedded as `Int`.
-/

/-- The GADDAG separator symbol, written `"^"` in `main.go`. -/
def hatSym : Char := '^'

/-- `GADDAGNode` from `main.go`: a map from symbol to child plus a
terminal flag.  The Go `map[string]*GADDAGNode` is embedded as an
association list. -/
inductive GNode where
  | node (children : List (Char × GNode)) (isTerminal : Bool)

/-- The children map of a node. -/
def GNode.children : GNode → List (Char × GNode)
  | .node ch _ => ch

/-- The `IsTerminal` flag of a node. -/
def GNode.terminal : GNode → Bool
  | .node _ b => b

/-- Lookup in the children association list (Go map read
`node.Children[letter]`). -/
def assocFind : List (Char × GNode) → Char → Option GNode
  | [], _ => none
  | (k, v) :: rest, c => if k = c then some v else assocFind rest c

/-- Update (or insert) a key in the children association list (Go map
write `node.Children[letter] = child`). -/
def assocUpdate : List (Char × GNode) → Char → GNode → List (Char × GNode)
  | [], c, v => [(c, v)]
  | (k, w) :: rest, c, v =>
      if k = c then (k, v) :: rest else (k, w) :: assocUpdate rest c v

/-- A freshly allocated node: `&GADDAGNode{Children: make(...)}`. -/
def emptyGNode : GNode := .node [] false

/-- Read `node.Children[c]`. -/
def childFind (g : GNode) (c : Char) : Option GNode := assocFind g.children c

/-- Follow a path of symbols from a node (the automaton's `step`
iterated; a missing edge yields `none`). -/
def lookupG : GNode → List Char → Option GNode
  | g, [] => some g
  | g, c :: cs =>
      match childFind g c with
      | none => none
      | some g' => lookupG g' cs

/-- Walk a path from a node, creating missing children, and mark the
final node terminal.  This is the inner walk of `addWordToGADDAG` for
one split of one word. -/
def insertPath : GNode → List Char → GNode
  | .node ch _, [] => .node ch true
  | .node ch b, c :: cs =>
      let child := match assocFind ch c with
        | some n => n
        | none => emptyGNode
      .node (assocUpdate ch c (insertPath child cs)) b

/-- The path inserted by `addWordToGADDAG` for word `w` and split index
`i`: the first `i` letters reversed, the separator `^`, then the rest of
the word forward. -/
def splitPath (w : List Char) (i : Nat) : List Char :=
  (w.take i).reverse ++ hatSym :: w.drop i

/-- `addWordToGADDAG` from `main.go`: for every split index
`i = 0 .. len w`, insert the corresponding split path and mark its final
node terminal. -/
def addWordToGADDAG (g : GNode) (w : List Char) : GNode :=
  (List.range (w.length + 1)).foldl (fun g i => insertPath g (splitPath w i)) g

/-- Building the GADDAG from a word list (the loop over `words` in
`createBasicGADDAG`, starting from a fresh root). -/
def buildGADDAG (ws : List (List Char)) : GNode :=
  ws.foldl addWordToGADDAG emptyGNode

example : (lookupG (buildGADDAG [['A', 'T']]) ['T', 'A', hatSym]).isSome := by decide
example : (lookupG (buildGADDAG [['A', 'T']]) [hatSym, 'A', 'T']).map GNode.terminal
    = some true := by decide
example : (lookupG (buildGADDAG [['A', 'T']]) ['A', 'T']).isNone := by decide

/-- Placement axis: the Go code passes the strings `"horizontal"` /
`"vertical"`; only these two values ever flow through. -/
inductive Dir where
  | horizontal
  | vertical
deriving DecidableEq

/-- A normalized 15×15 board: the Go `[][]string` produced by
`normalizeBoard`, as a total function; `none` is the empty-cell string
`""`, and the code only reads rows/columns below 15. -/
def Board := Nat → Nat → Option Char

/-- `Tile` from `main.go`. -/
structure Tile where
  row : Nat
  col : Nat
  letter : Char
  isNew : Bool
  isBlank : Bool
deriving DecidableEq

/-- `Move` from `main.go`.  The Go struct also carries
`TotalValue float64`, which is set to `float64(score)` and nowhere else
read; this redundant floating-point mirror of `Score` is omitted. -/
structure Move where
  word : List Char
  score : Nat
  tiles : List Tile
  dir : Dir
  startRow : Nat
  startCol : Nat
deriving DecidableEq

/-- `letterScores` from `main.go`; a missing key reads as the Go map
zero value `0`. -/
def letterScores (c : Char) : Nat :=
  if c = 'A' then 1 else if c = 'B' then 3 else if c = 'C' then 3
  else if c = 'D' then 2 else if c = 'E' then 1 else if c = 'F' then 4
  else if c = 'G' then 2 else if c = 'H' then 4 else if c = 'I' then 1
  else if c = 'J' then 8 else if c = 'K' then 5 else if c = 'L' then 1
  else if c = 'M' then 3 else if c = 'N' then 1 else if c = 'O' then 1
  else if c = 'P' then 3 else if c = 'Q' then 10 else if c = 'R' then 1
  else if c = 'S' then 1 else if c = 'T' then 1 else if c = 'U' then 1
  else if c = 'V' then 4 else if c = 'W' then 4 else if c = 'X' then 8
  else if c = 'Y' then 4 else if c = 'Z' then 10 else 0

/-- `wordMultipliers` from `main.go`. -/
def wordMultipliers : List (List Nat) :=
  [[3, 1, 1, 1, 1, 1, 1, 3, 1, 1, 1, 1, 1, 1, 3],
   [1, 2, 1, 1, 1, 1, 1, 1, 1, 1, 1, 1, 1, 2, 1],
   [1, 1, 2, 1, 1, 1, 1, 1, 1, 1, 1, 1, 2, 1, 1],
   [1, 1, 1, 2, 1, 1, 1, 1, 1, 1, 1, 2, 1, 1, 1],
   [1, 1, 1, 1, 2, 1, 1, 1, 1, 1, 2, 1, 1, 1, 1],
   [1, 1, 1, 1, 1, 1, 1, 1, 1, 1, 1, 1, 1, 1, 1],
   [1, 1, 1, 1, 1, 1, 1, 1, 1, 1, 1, 1, 1, 1, 1],
   [3, 1, 1, 1, 1, 1, 1, 2, 1, 1, 1, 1, 1, 1, 3],
   [1, 1, 1, 1, 1, 1, 1, 1, 1, 1, 1, 1, 1, 1, 1],
   [1, 1, 1, 1, 1, 1, 1, 1, 1, 1, 1, 1, 1, 1, 1],
   [1, 1, 1, 1, 2, 1, 1, 1, 1, 1, 2, 1, 1, 1, 1],
   [1, 1, 1, 2, 1, 1, 1, 1, 1, 1, 1, 2, 1, 1, 1],
   [1, 1, 2, 1, 1, 1, 1, 1, 1, 1, 1, 1, 2, 1, 1],
   [1, 2, 1, 1, 1, 1, 1, 1, 1, 1, 1, 1, 1, 2, 1],
   [3, 1, 1, 1, 1, 1, 1, 3, 1, 1, 1, 1, 1, 1, 3]]

/-- `letterMultipliers` from `main.go`. -/
def letterMultipliers : List (List Nat) :=
  [[1, 1, 1, 2, 1, 1, 1, 1, 1, 1, 1, 2, 1, 1, 1],
   [1, 1, 1, 1, 1, 3, 1, 1, 1, 3, 1, 1, 1, 1, 1],
   [1, 1, 1, 1, 1, 1, 2, 1, 2, 1, 1, 1, 1, 1, 1],
   [2, 1, 1, 1, 1, 1, 1, 2, 1, 1, 1, 1, 1, 1, 2],
   [1, 1, 1, 1, 1, 1, 1, 1, 1, 1, 1, 1, 1, 1, 1],
   [1, 3, 1, 1, 1, 1, 1, 1, 1, 1, 1, 1, 1, 3, 1],
   [1, 1, 2, 1, 1, 1, 1, 1, 1, 1, 1, 1, 2, 1, 1],
   [1, 1, 1, 2, 1, 1, 1, 1, 1, 1, 1, 2, 1, 1, 1],
   [1, 1, 2, 1, 1, 1, 1, 1, 1, 1, 1, 1, 2, 1, 1],
   [1, 3, 1, 1, 1, 1, 1, 1, 1, 1, 1, 1, 1, 3, 1],
   [1, 1, 1, 1, 1, 1, 1, 1, 1, 1, 1, 1, 1, 1, 1],
   [2, 1, 1, 1, 1, 1, 1, 2, 1, 1, 1, 1, 1, 1, 2],
   [1, 1, 1, 1, 1, 1, 2, 1, 2, 1, 1, 1, 1, 1, 1],
   [1, 1, 1, 1, 1, 3, 1, 1, 1, 3, 1, 1, 1, 1, 1],
   [1, 1, 1, 2, 1, 1, 1, 1, 1, 1, 1, 2, 1, 1, 1]]

/-- Index a multiplier table.  Coordinates of generated tiles are always
below 15, so the fallback value (a Go index panic) is never read on
reachable inputs. -/
def tableAt (tbl : List (List Nat)) (r c : Nat) : Nat := (tbl.getD r []).getD c 1

/-- `isAnchor` from `main.go`: the cell is 8-adjacent to an occupied
cell.  The offsets are listed in the Go loop order. -/
def anchorDeltas : List (Int × Int) :=
  [(-1, -1), (-1, 0), (-1, 1), (0, -1), (0, 1), (1, -1), (1, 0), (1, 1)]

/-- `isAnchor` from `main.go`. -/
def isAnchor (board : Board) (row col : Nat) : Bool :=
  anchorDeltas.any (fun d =>
    let nr : Int := (row : Int) + d.1
    let nc : Int := (col : Int) + d.2
    if 0 ≤ nr ∧ nr < 15 ∧ 0 ≤ nc ∧ nc < 15 then
      (board nr.toNat nc.toNat).isSome
    else false)

/-- `findAnchors` from `main.go`: row-major scan of empty anchor cells. -/
def findAnchors (board : Board) : List (Nat × Nat) :=
  (List.range 15).flatMap (fun row =>
    (List.range 15).flatMap (fun col =>
      if (board row col).isNone ∧ isAnchor board row col then [(row, col)] else []))

/-- The coordinate that advances along the placement axis (Go checks
`col+i >= 15` in the horizontal loops and `row+i >= 15` in the vertical
ones). -/
def movingCoord (dir : Dir) (row col i : Nat) : Nat :=
  match dir with
  | .horizontal => col + i
  | .vertical => row + i

/-- The board cell read at offset `i` along the placement axis
(Go `board[row][col+i]` resp. `board[row+i][col]`). -/
def cellAt (dir : Dir) (row col i : Nat) : Nat × Nat :=
  match dir with
  | .horizontal => (row, col + i)
  | .vertical => (row + i, col)

/-- Remove from the rack the first tile equal to the letter or equal to
the blank `'?'` (the inner `for j, rackTile := range rackCopy` scan in
`canPlaceWord`); `none` when no such tile exists. -/
def takeTile : List Char → Char → Option (List Char)
  | [], _ => none
  | t :: ts, L => if t = L ∨ t = '?' then some ts else (takeTile ts L).map (t :: ·)

/-- The body of `canPlaceWord`, one iteration per word letter.  The Go
function duplicates the identical loop for each direction; `movingCoord`
and `cellAt` capture the only difference. -/
def canPlaceGo (board : Board) (dir : Dir) (row col : Nat) :
    List Char → Nat → List Char → Bool
  | [], _, _ => true
  | L :: rest, i, rack =>
    if movingCoord dir row col i ≥ 15 then false
    else
      match board (cellAt dir row col i).1 (cellAt dir row col i).2 with
      | none =>
        match takeTile rack L with
        | some rack' => canPlaceGo board dir row col rest (i + 1) rack'
        | none => false
      | some b => if b = L then canPlaceGo board dir row col rest (i + 1) rack else false

/-- `canPlaceWord` from `main.go`. -/
def canPlaceWord (board : Board) (word : List Char) (row col : Nat) (dir : Dir)
    (rack : List Char) : Bool :=
  canPlaceGo board dir row col word 0 rack

/-- The 26 letters tried for a blank tile
(`for letter := 'A'; letter <= 'Z'; letter++`). -/
def lettersAZ : List Char := (List.range 26).map (fun i => Char.ofNat ('A'.toNat + i))

/-- `traverseGADDAG` from `main.go`, together with its inner
board-letter loop.  `phase = true` is the body of `traverseGADDAG`
proper; `phase = false` is the trailing
`for c := col; c < 15 && board[row][c] != ""; c++` loop, whose recursive
calls re-enter the `phase = true` body.  Note that, exactly as in the Go
loop, the scan keeps extending from the *same* node and the same
accumulated word while only the position advances, and it breaks as soon
as a board letter has no matching child edge.  Go appends found words
into a shared slice; here each call returns the words it appends, in the
same order. -/
def travGo (phase : Bool) (g : GNode) (cur : List Char) (board : Board)
    (rack : List Char) (row col : Nat) (dir : Dir) : List (List Char) :=
  if _hph : phase then
    (if g.terminal = true ∧ 0 < cur.length then
       if canPlaceWord board cur row col dir rack then [cur] else []
     else []) ++
    ((List.finRange rack.length).flatMap (fun i =>
        have _hlen : (rack.eraseIdx i.1).length = rack.length - 1 :=
          List.length_eraseIdx_of_lt i.isLt
        have _hpos : 0 < rack.length := Nat.lt_of_le_of_lt (Nat.zero_le _) i.isLt
        let tile := rack.get i
        if tile = '?' then
          lettersAZ.flatMap (fun L =>
            match childFind g L with
            | some child =>
                travGo true child (cur ++ [L]) board (rack.eraseIdx i.1) row col dir
            | none => [])
        else
          match childFind g tile with
          | some child =>
              travGo true child (cur ++ [tile]) board (rack.eraseIdx i.1) row col dir
          | none => [])) ++
    travGo false g cur board rack row col dir
  else
    match dir with
    | .horizontal =>
      if _h : col < 15 then
        match board row col with
        | some letter =>
          (match childFind g letter with
           | some child =>
               travGo true child (cur ++ [letter]) board rack row (col + 1) dir ++
               travGo false g cur board rack row (col + 1) dir
           | none => [])
        | none => []
      else []
    | .vertical =>
      if _h : row < 15 then
        match board row col with
        | some letter =>
          (match childFind g letter with
           | some child =>
               travGo true child (cur ++ [letter]) board rack (row + 1) col dir ++
               travGo false g cur board rack (row + 1) col dir
           | none => [])
        | none => []
      else []
termination_by
  rack.length * 62 + 2 * ((15 - min row 15) + (15 - min col 15)) + phase.toNat
decreasing_by
  all_goals simp_all [Bool.toNat] <;> omega

/-- `traverseGADDAG` proper (entry with `phase = true`). -/
def traverseGADDAG (g : GNode) (cur : List Char) (board : Board) (rack : List Char)
    (row col : Nat) (dir : Dir) : List (List Char) :=
  travGo true g cur board rack row col dir

/-- `generateWordsFromPosition` from `main.go`: start the traversal at
the root with an empty accumulated word (the Go rack copy is value
semantics here). -/
def generateWordsFromPosition (g : GNode) (board : Board) (rack : List Char)
    (row col : Nat) (dir : Dir) : List (List Char) :=
  traverseGADDAG g [] board rack row col dir

/-- The loop `for leftLimit > 0 && board[row][leftLimit-1] == ""
{ leftLimit-- }` of `generateWordsWithGADDAG`. -/
def emptyBackScanH (board : Board) (row : Nat) : Nat → Nat
  | 0 => 0
  | c + 1 => if (board row c).isNone then emptyBackScanH board row c else c + 1

/-- The vertical twin of `emptyBackScanH` (`topLimit` loop). -/
def emptyBackScanV (board : Board) (col : Nat) : Nat → Nat
  | 0 => 0
  | r + 1 => if (board r col).isNone then emptyBackScanV board col r else r + 1

/-- `generateWordsWithGADDAG` from `main.go`: try every start position
from the left/top limit up to the anchor itself.  (The Go function also
receives the `existingWord` string, which it only prints; that argument
is dropped here.) -/
def generateWordsWithGADDAG (g : GNode) (board : Board) (rack : List Char)
    (row col : Nat) (dir : Dir) : List (List Char) :=
  match dir with
  | .horizontal =>
    let leftLimit := emptyBackScanH board row col
    ((List.range (col + 1 - leftLimit)).map (· + leftLimit)).flatMap
      (fun sc => generateWordsFromPosition g board rack row sc dir)
  | .vertical =>
    let topLimit := emptyBackScanV board col row
    ((List.range (row + 1 - topLimit)).map (· + topLimit)).flatMap
      (fun sr => generateWordsFromPosition g board rack sr col dir)

/-- The loop `for startCol > 0 && board[row][startCol-1] != ""
{ startCol-- }` of `createMove` (find the start of the occupied run). -/
def backScanH (board : Board) (row : Nat) : Nat → Nat
  | 0 => 0
  | c + 1 => if (board row c).isSome then backScanH board row c else c + 1

/-- The vertical twin of `backScanH`. -/
def backScanV (board : Board) (col : Nat) : Nat → Nat
  | 0 => 0
  | r + 1 => if (board r col).isSome then backScanV board col r else r + 1

/-- Collect the occupied run forwards
(`for c := startCol; c < 15 && board[row][c] != ""; c++`). -/
def forwardRunH (board : Board) (row : Nat) (c : Nat) : List Char :=
  ((List.range 15).drop c).takeWhile (fun k => (board row k).isSome) |>.filterMap
    (fun k => board row k)

/-- The vertical twin of `forwardRunH`. -/
def forwardRunV (board : Board) (col : Nat) (r : Nat) : List Char :=
  ((List.range 15).drop r).takeWhile (fun k => (board k col).isSome) |>.filterMap
    (fun k => board k col)

/-- `getExistingWord` from `main.go`.  Its value is only ever printed by
the Go search (it is passed to `generateWordsWithGADDAG`, which logs it);
it is embedded for completeness but feeds no other definition. -/
def getExistingWord (board : Board) (row col : Nat) (dir : Dir) : List Char :=
  match dir with
  | .horizontal => forwardRunH board row (backScanH board row col)
  | .vertical => forwardRunV board col (backScanV board col row)

/-- Remove the first rack tile matching the letter or the blank, and
also report which tile was consumed (Go reads `rackTile` to decide
`IsBlank` before removing it in `createMove`). -/
def takeTileB : List Char → Char → Option (Char × List Char)
  | [], _ => none
  | t :: ts, L =>
      if t = L ∨ t = '?' then some (t, ts)
      else (takeTileB ts L).map (fun p => (p.1, t :: p.2))

/-- The tile-building loop of `createMove`, one iteration per word
letter; again the Go code has one identical copy per direction.  Returns
the created tiles and the remaining rack copy; `none` is Go's
`return nil` (off the board, or no usable rack tile for an empty cell).
Occupied cells are skipped without a letter check and consume nothing. -/
def placeTiles (board : Board) (dir : Dir) (row col : Nat) :
    List Char → Nat → List Char → Option (List Tile × List Char)
  | [], _, rack => some ([], rack)
  | L :: rest, i, rack =>
    if movingCoord dir row col i ≥ 15 then none
    else
      match board (cellAt dir row col i).1 (cellAt dir row col i).2 with
      | none =>
        match takeTileB rack L with
        | some (t, rack') =>
          (placeTiles board dir row col rest (i + 1) rack').map
            (fun p =>
              ({ row := (cellAt dir row col i).1, col := (cellAt dir row col i).2,
                 letter := L, isNew := true, isBlank := t = '?' } :: p.1, p.2))
        | none => none
      | some _ => placeTiles board dir row col rest (i + 1) rack

/-- `calculateScore` from `main.go`: sum letter values times letter
multipliers over the newly created tiles, multiply by the product of the
word multipliers under those tiles.  The Go body has an `if` on the
direction whose two branches are identical, and its `board`, `startRow`,
`startCol` parameters are unused; the direction split is dropped and the
unused parameters kept. -/
def calculateScore (board : Board) (tiles : List Tile) (startRow startCol : Nat)
    (dir : Dir) : Nat :=
  let p := tiles.foldl
    (fun (acc : Nat × Nat) t =>
      (acc.1 + letterScores t.letter * tableAt letterMultipliers t.row t.col,
       acc.2 * tableAt wordMultipliers t.row t.col))
    (0, 1)
  p.1 * p.2

/-- `createMove` from `main.go`: rewind to the start of the occupied run
through the anchor, lay out the word from there consuming rack tiles on
empty cells, reject tile-less results, and score. -/
def createMove (board : Board) (word : List Char) (row col : Nat) (dir : Dir)
    (rack : List Char) : Option Move :=
  let startRow := match dir with
    | .horizontal => row
    | .vertical => backScanV board col row
  let startCol := match dir with
    | .horizontal => backScanH board row col
    | .vertical => col
  match placeTiles board dir startRow startCol word 0 rack with
  | none => none
  | some (tiles, _) =>
    if tiles = [] then none
    else
      some { word := word,
             score := calculateScore board tiles startRow startCol dir,
             tiles := tiles, dir := dir, startRow := startRow, startCol := startCol }

/-- The deduplication key
`fmt.Sprintf("%s-%d,%d-%s", word, startRow, startCol, direction)`;
since words consist of letters, the formatted string is injective in the
four components and is embedded as the tuple itself. -/
abbrev MoveKey := List Char × Nat × Nat × Dir

/-- The key of a move, as built in `generateMovesAtAnchor`. -/
def moveKeyOf (m : Move) : MoveKey := (m.word, m.startRow, m.startCol, m.dir)

/-- `generateMovesAtAnchor` from `main.go`: for both directions, collect
the GADDAG words, turn each into a move, and keep it unless its key is
already in the shared `moveSet` (threaded here as a key list together
with the per-anchor move accumulator). -/
def generateMovesAtAnchor (g : GNode) (board : Board) (rack : List Char)
    (anchorRow anchorCol : Nat) (seen : List MoveKey) : List Move × List MoveKey :=
  [Dir.horizontal, Dir.vertical].foldl
    (fun acc dir =>
      let words := generateWordsWithGADDAG g board rack anchorRow anchorCol dir
      words.foldl
        (fun acc w =>
          match createMove board w anchorRow anchorCol dir rack with
          | none => acc
          | some m =>
            if moveKeyOf m ∈ acc.2 then acc
            else (acc.1 ++ [m], moveKeyOf m :: acc.2))
        acc)
    ([], seen)

/-- Rack normalization in `generateMoves`: `"*"` becomes the blank
`"?"`, anything else is upper-cased. -/
def normTile (t : Char) : Char := if t = '*' then '?' else t.toUpper

/-- The `isEmpty` double loop of `generateMoves`. -/
def boardIsEmpty (board : Board) : Bool :=
  (List.range 15).all (fun r => (List.range 15).all (fun c => (board r c).isNone))

/-- `generateMoves` from `main.go`: normalize the rack; on an empty
board run only the center anchor `(7, 7)`, otherwise fold over
`findAnchors`, threading the shared `moveSet` and appending each
anchor's moves. -/
def generateMoves (g : GNode) (board : Board) (rack : List Char) : List Move :=
  let rackArr := rack.map normTile
  if boardIsEmpty board then
    (generateMovesAtAnchor g board rackArr 7 7 []).1
  else
    ((findAnchors board).foldl
      (fun (acc : List Move × List MoveKey) a =>
        let res := generateMovesAtAnchor g board rackArr a.1 a.2 acc.2
        (acc.1 ++ res.1, res.2))
      ([], [])).1

/-- `normalizeBoard` from `main.go`: whatever the shape of the raw grid,
produce a 15×15 board, reading present string cells and filling
everything else with the empty cell.  Undersized grids are padded,
oversized grids are cropped, and no error is ever reported. -/
def normalizeBoard (raw : List (List (Option Char))) : Board :=
  fun i j => if i < 15 ∧ j < 15 then (raw.getD i []).getD j none else none

/-- The semantic core of `handleGenerateMoves` in `main.go` (after JSON
decoding): normalize the board and generate moves; there is no error
path for a malformed board shape. -/
def handleGenerateMovesCore (g : GNode) (raw : List (List (Option Char)))
    (letters : List Char) : List Move :=
  generateMoves g (normalizeBoard raw) letters

/-! ## Association-list and insertion lemmas -/

theorem assocFind_assocUpdate_self (ch : List (Char × GNode)) (c : Char) (v : GNode) :
    assocFind (assocUpdate ch c v) c = some v := by
  induction ch with
  | nil => simp [assocUpdate, assocFind]
  | cons hd tl ih =>
    obtain ⟨k, w⟩ := hd
    by_cases hk : k = c
    · simp [assocUpdate, assocFind, hk]
    · simp [assocUpdate, assocFind, hk, ih]

theorem assocFind_assocUpdate_ne (ch : List (Char × GNode)) (c d : Char) (v : GNode)
    (hne : d ≠ c) : assocFind (assocUpdate ch c v) d = assocFind ch d := by
  have hcd : c ≠ d := fun h => hne h.symm
  induction ch with
  | nil => simp [assocUpdate, assocFind, hcd]
  | cons hd tl ih =>
    obtain ⟨k, w⟩ := hd
    by_cases hk : k = c
    · subst hk
      simp [assocUpdate, assocFind, hcd]
    · by_cases hd2 : k = d
      · simp [assocUpdate, assocFind, hk, hd2, hne]
      · simp [assocUpdate, assocFind, hk, hd2, ih]

/-- Looking up the freshly inserted path reaches a terminal node. -/
theorem lookupG_insertPath_self (p : List Char) :
    ∀ g : GNode, ∃ n, lookupG (insertPath g p) p = some n ∧ n.terminal = true := by
  induction p with
  | nil =>
    intro g
    obtain ⟨ch, b⟩ := g
    exact ⟨.node ch true, rfl, rfl⟩
  | cons c cs ih =>
    intro g
    obtain ⟨ch, b⟩ := g
    obtain ⟨n, hn, hterm⟩ := ih (match assocFind ch c with | some n => n | none => emptyGNode)
    refine ⟨n, ?_, hterm⟩
    simp only [insertPath, lookupG, childFind, GNode.children,
      assocFind_assocUpdate_self]
    exact hn

/-- The empty node has no terminal node under it. -/
theorem lookupG_emptyGNode_not_terminal (q : List Char) (n : GNode)
    (h : lookupG emptyGNode q = some n) : n.terminal = false := by
  cases q with
  | nil =>
    simp only [lookupG] at h
    cases h
    rfl
  | cons c cs =>
    simp [lookupG, childFind, emptyGNode, GNode.children, assocFind] at h

/-- Inserting a path creates no terminal nodes besides the inserted
path's own endpoint: any terminal reached in the new trie is either at
the inserted path or was already terminal before. -/
theorem lookupG_insertPath_terminal (p : List Char) :
    ∀ (g : GNode) (q : List Char) (n : GNode),
      lookupG (insertPath g p) q = some n → n.terminal = true →
      q = p ∨ ∃ m, lookupG g q = some m ∧ m.terminal = true := by
  induction p with
  | nil =>
    intro g q n hq hterm
    obtain ⟨ch, b⟩ := g
    cases q with
    | nil =>
      left; rfl
    | cons d ds =>
      right
      exact ⟨n, hq, hterm⟩
  | cons c cs ih =>
    intro g q n hq hterm
    obtain ⟨ch, b⟩ := g
    cases q with
    | nil =>
      simp only [insertPath, lookupG] at hq
      cases hq
      right
      exact ⟨.node ch b, rfl, hterm⟩
    | cons d ds =>
      by_cases hdc : d = c
      · subst hdc
        simp only [insertPath, lookupG, childFind, GNode.children,
          assocFind_assocUpdate_self] at hq
        rcases ih _ ds n hq hterm with h1 | ⟨m, hm, hmt⟩
        · left
          rw [h1]
        · cases hfind : assocFind ch d with
          | none =>
            rw [hfind] at hm
            have := lookupG_emptyGNode_not_terminal ds m hm
            rw [this] at hmt
            cases hmt
          | some child =>
            rw [hfind] at hm
            right
            refine ⟨m, ?_, hmt⟩
            simp [lookupG, childFind, GNode.children, hfind, hm]
      · right
        simp only [insertPath, lookupG, childFind, GNode.children,
          assocFind_assocUpdate_ne _ _ _ _ hdc] at hq
        refine ⟨n, ?_, hterm⟩
        simpa [lookupG, childFind, GNode.children] using hq

/-- Inserting a path preserves every terminal already present. -/
theorem lookupG_insertPath_preserve (p : List Char) :
    ∀ (g : GNode) (q : List Char) (n : GNode),
      lookupG g q = some n → n.terminal = true →
      ∃ m, lookupG (insertPath g p) q = some m ∧ m.terminal = true := by
  induction p with
  | nil =>
    intro g q n hq hterm
    obtain ⟨ch, b⟩ := g
    cases q with
    | nil =>
      simp only [lookupG] at hq
      cases hq
      exact ⟨.node ch true, rfl, rfl⟩
    | cons d ds =>
      refine ⟨n, ?_, hterm⟩
      simpa [insertPath, lookupG, childFind, GNode.children] using hq
  | cons c cs ih =>
    intro g q n hq hterm
    obtain ⟨ch, b⟩ := g
    cases q with
    | nil =>
      simp only [lookupG] at hq
      cases hq
      exact ⟨.node (assocUpdate ch c (insertPath (match assocFind ch c with
        | some n => n | none => emptyGNode) cs)) b, rfl, hterm⟩
    | cons d ds =>
      by_cases hdc : d = c
      · subst hdc
        simp only [lookupG, childFind, GNode.children] at hq
        cases hfind : assocFind ch d with
        | none => rw [hfind] at hq; cases hq
        | some child =>
          rw [hfind] at hq
          obtain ⟨m, hm, hmt⟩ := ih child ds n hq hterm
          refine ⟨m, ?_, hmt⟩
          simp [insertPath, lookupG, childFind, GNode.children,
            assocFind_assocUpdate_self, hfind]
          exact hm
      · refine ⟨n, ?_, hterm⟩
        simp only [lookupG, childFind, GNode.children] at hq
        simpa [insertPath, lookupG, childFind, GNode.children,
          assocFind_assocUpdate_ne _ _ _ _ hdc] using hq

/-- `addWordToGADDAG` is the fold of `insertPath` over the word's split
paths. -/
theorem addWordToGADDAG_eq_foldl (g : GNode) (w : List Char) :
    addWordToGADDAG g w =
      (((List.range (w.length + 1)).map (splitPath w)).foldl insertPath g) := by
  rw [List.foldl_map]
  rfl

theorem lookupG_foldl_insertPath_preserve (ps : List (List Char)) :
    ∀ (g : GNode) (q : List Char) (n : GNode),
      lookupG g q = some n → n.terminal = true →
      ∃ m, lookupG (ps.foldl insertPath g) q = some m ∧ m.terminal = true := by
  induction ps with
  | nil => intro g q n hq ht; exact ⟨n, hq, ht⟩
  | cons p ps ih =>
    intro g q n hq ht
    obtain ⟨m, hm, hmt⟩ := lookupG_insertPath_preserve p g q n hq ht
    exact ih (insertPath g p) q m hm hmt

theorem lookupG_foldl_insertPath_self (ps : List (List Char)) :
    ∀ (g : GNode) (p : List Char), p ∈ ps →
      ∃ n, lookupG (ps.foldl insertPath g) p = some n ∧ n.terminal = true := by
  induction ps with
  | nil => intro g p hp; cases hp
  | cons hd ps ih =>
    intro g p hp
    rcases List.mem_cons.mp hp with h | h
    · subst h
      obtain ⟨n, hn, ht⟩ := lookupG_insertPath_self p g
      exact lookupG_foldl_insertPath_preserve ps (insertPath g p) p n hn ht
    · exact ih (insertPath g hd) p h

theorem lookupG_foldl_insertPath_terminal (ps : List (List Char)) :
    ∀ (g : GNode) (q : List Char) (n : GNode),
      lookupG (ps.foldl insertPath g) q = some n → n.terminal = true →
      q ∈ ps ∨ ∃ m, lookupG g q = some m ∧ m.terminal = true := by
  induction ps with
  | nil => intro g q n hq ht; exact Or.inr ⟨n, hq, ht⟩
  | cons p ps ih =>
    intro g q n hq ht
    rcases ih (insertPath g p) q n hq ht with h | ⟨m, hm, hmt⟩
    · exact Or.inl (List.mem_cons_of_mem _ h)
    · rcases lookupG_insertPath_terminal p g q m hm hmt with h | h
      · exact Or.inl (h ▸ List.mem_cons_self _ _)
      · exact Or.inr h

theorem addWordToGADDAG_preserve (g : GNode) (w : List Char) (q : List Char) (n : GNode)
    (hq : lookupG g q = some n) (ht : n.terminal = true) :
    ∃ m, lookupG (addWordToGADDAG g w) q = some m ∧ m.terminal = true := by
  rw [addWordToGADDAG_eq_foldl]
  exact lookupG_foldl_insertPath_preserve _ g q n hq ht

theorem addWordToGADDAG_self (g : GNode) (w : List Char) (i : Nat) (hi : i ≤ w.length) :
    ∃ n, lookupG (addWordToGADDAG g w) (splitPath w i) = some n ∧ n.terminal = true := by
  rw [addWordToGADDAG_eq_foldl]
  refine lookupG_foldl_insertPath_self _ g _ ?_
  exact List.mem_map_of_mem _ (List.mem_range.mpr (Nat.lt_succ_of_le hi))

theorem addWordToGADDAG_terminal (g : GNode) (w : List Char) (q : List Char) (n : GNode)
    (hq : lookupG (addWordToGADDAG g w) q = some n) (ht : n.terminal = true) :
    (∃ i, i ≤ w.length ∧ q = splitPath w i) ∨
      ∃ m, lookupG g q = some m ∧ m.terminal = true := by
  rw [addWordToGADDAG_eq_foldl] at hq
  rcases lookupG_foldl_insertPath_terminal _ g q n hq ht with h | h
  · obtain ⟨i, hi, hqi⟩ := List.mem_map.mp h
    exact Or.inl ⟨i, Nat.lt_succ_iff.mp (List.mem_range.mp hi), hqi.symm⟩
  · exact Or.inr h

theorem buildGADDAG_foldl_preserve (ws : List (List Char)) :
    ∀ (g : GNode) (q : List Char) (n : GNode),
      lookupG g q = some n → n.terminal = true →
      ∃ m, lookupG (ws.foldl addWordToGADDAG g) q = some m ∧ m.terminal = true := by
  induction ws with
  | nil => intro g q n hq ht; exact ⟨n, hq, ht⟩
  | cons w ws ih =>
    intro g q n hq ht
    obtain ⟨m, hm, hmt⟩ := addWordToGADDAG_preserve g w q n hq ht
    exact ih (addWordToGADDAG g w) q m hm hmt

theorem buildGADDAG_foldl_self (ws : List (List Char)) :
    ∀ (g : GNode) (w : List Char), w ∈ ws → ∀ i, i ≤ w.length →
      ∃ n, lookupG (ws.foldl addWordToGADDAG g) (splitPath w i) = some n ∧
        n.terminal = true := by
  induction ws with
  | nil => intro g w hw; cases hw
  | cons hd ws ih =>
    intro g w hw i hi
    rcases List.mem_cons.mp hw with h | h
    · subst h
      obtain ⟨n, hn, ht⟩ := addWordToGADDAG_self g w i hi
      exact buildGADDAG_foldl_preserve ws (addWordToGADDAG g w) _ n hn ht
    · exact ih (addWordToGADDAG g hd) w h i hi

theorem buildGADDAG_foldl_terminal (ws : List (List Char)) :
    ∀ (g : GNode) (q : List Char) (n : GNode),
      lookupG (ws.foldl addWordToGADDAG g) q = some n → n.terminal = true →
      (∃ w, w ∈ ws ∧ ∃ i, i ≤ w.length ∧ q = splitPath w i) ∨
        ∃ m, lookupG g q = some m ∧ m.terminal = true := by
  induction ws with
  | nil => intro g q n hq ht; exact Or.inr ⟨n, hq, ht⟩
  | cons w ws ih =>
    intro g q n hq ht
    rcases ih (addWordToGADDAG g w) q n hq ht with h | ⟨m, hm, hmt⟩
    · obtain ⟨w', hw', rest⟩ := h
      exact Or.inl ⟨w', List.mem_cons_of_mem _ hw', rest⟩
    · rcases addWordToGADDAG_terminal g w q m hm hmt with ⟨i, hi, hqi⟩ | h
      · exact Or.inl ⟨w, List.mem_cons_self _ _, i, hi, hqi⟩
      · exact Or.inr h

/-! ## No terminal node is reachable without crossing the separator -/

/-- Every node reachable from `g` along edges other than the separator
`^` is non-terminal (`g` itself included). -/
inductive NoHatTerm : GNode → Prop
  | intro (ch : List (Char × GNode))
      (h : ∀ c n, assocFind ch c = some n → c ≠ hatSym → NoHatTerm n) :
      NoHatTerm (.node ch false)

theorem noHatTerm_empty : NoHatTerm emptyGNode :=
  .intro [] (fun c n h _ => by simp [assocFind] at h)

theorem NoHatTerm.terminal_false {g : GNode} (h : NoHatTerm g) : g.terminal = false := by
  cases h
  rfl

theorem NoHatTerm.child {g n : GNode} {c : Char} (h : NoHatTerm g)
    (hc : childFind g c = some n) (hne : c ≠ hatSym) : NoHatTerm n := by
  cases h with
  | intro ch hch => exact hch c n hc hne

/-- Inserting a path that contains the separator preserves the
invariant. -/
theorem insertPath_noHatTerm (p : List Char) :
    ∀ g : GNode, hatSym ∈ p → NoHatTerm g → NoHatTerm (insertPath g p) := by
  induction p with
  | nil => intro g hmem; cases hmem
  | cons c cs ih =>
    intro g hmem hg
    cases hg with
    | intro ch hch =>
      by_cases hc : c = hatSym
      · subst hc
        refine .intro _ (fun d n hd hne => ?_)
        rw [assocFind_assocUpdate_ne _ _ _ _ hne] at hd
        exact hch d n hd hne
      · have hcs : hatSym ∈ cs := by
          rcases List.mem_cons.mp hmem with h | h
          · exact absurd h.symm hc
          · exact h
        refine .intro _ (fun d n hd hne => ?_)
        by_cases hdc : d = c
        · subst hdc
          rw [assocFind_assocUpdate_self] at hd
          cases hd
          cases hfind : assocFind ch d with
          | none => simpa [hfind] using ih _ hcs noHatTerm_empty
          | some child =>
            have := hch d child hfind hne
            simpa [hfind] using ih _ hcs this
        · rw [assocFind_assocUpdate_ne _ _ _ _ hdc] at hd
          exact hch d n hd hne

/-- Every split path contains the separator. -/
theorem hatSym_mem_splitPath (w : List Char) (i : Nat) : hatSym ∈ splitPath w i := by
  unfold splitPath
  exact List.mem_append_right _ (List.mem_cons_self _ _)

theorem addWordToGADDAG_noHatTerm (g : GNode) (w : List Char) (hg : NoHatTerm g) :
    NoHatTerm (addWordToGADDAG g w) := by
  rw [addWordToGADDAG_eq_foldl]
  have : ∀ (ps : List (List Char)) (g : GNode), (∀ p ∈ ps, hatSym ∈ p) →
      NoHatTerm g → NoHatTerm (ps.foldl insertPath g) := by
    intro ps
    induction ps with
    | nil => intro g _ hg; exact hg
    | cons p ps ih =>
      intro g hps hg
      exact ih _ (fun q hq => hps q (List.mem_cons_of_mem _ hq))
        (insertPath_noHatTerm p g (hps p (List.mem_cons_self _ _)) hg)
  refine this _ g (fun p hp => ?_) hg
  obtain ⟨i, _, hpi⟩ := List.mem_map.mp hp
  exact hpi ▸ hatSym_mem_splitPath w i

/-- The GADDAG built from any word list satisfies the invariant: no
terminal node is reachable without crossing the separator edge. -/
theorem buildGADDAG_noHatTerm (ws : List (List Char)) : NoHatTerm (buildGADDAG ws) := by
  unfold buildGADDAG
  have : ∀ (ws : List (List Char)) (g : GNode), NoHatTerm g →
      NoHatTerm (ws.foldl addWordToGADDAG g) := by
    intro ws
    induction ws with
    | nil => intro g hg; exact hg
    | cons w ws ih => intro g hg; exact ih _ (addWordToGADDAG_noHatTerm g w hg)
  exact this ws emptyGNode noHatTerm_empty

/-- A board is well formed when no cell holds the separator symbol (in
the Go data model cells hold letters or are empty). -/
def WFBoard (b : Board) : Prop := ∀ i j c, b i j = some c → c ≠ hatSym

theorem flatMap_eq_nil_of (l : List α) (f : α → List β) (h : ∀ x ∈ l, f x = []) :
    l.flatMap f = [] := by
  induction l with
  | nil => rfl
  | cons x xs ih =>
    simp only [List.flatMap_cons, h x (List.mem_cons_self _ _),
      List.nil_append]
    exact ih (fun y hy => h y (List.mem_cons_of_mem _ hy))

theorem lettersAZ_ne_hat : ∀ L ∈ lettersAZ, L ≠ hatSym := by decide

/-- Auxiliary form of the key emptiness theorem, by induction on the
termination measure of `travGo`: if the automaton node satisfies
`NoHatTerm` and neither the rack nor the board can supply the separator
symbol, the traversal emits no words at all. -/
theorem travGo_eq_nil_aux (n : Nat) :
    ∀ (phase : Bool) (g : GNode) (cur : List Char) (board : Board)
      (rack : List Char) (row col : Nat) (dir : Dir),
      rack.length * 62 + 2 * ((15 - min row 15) + (15 - min col 15)) + phase.toNat ≤ n →
      NoHatTerm g → (∀ t ∈ rack, t ≠ hatSym) → WFBoard board →
      travGo phase g cur board rack row col dir = [] := by
  induction n with
  | zero =>
    intro phase g cur board rack row col dir hμ hg hr hb
    have hphase : phase = false := by
      cases phase
      · rfl
      · simp [Bool.toNat] at hμ
    subst hphase
    have hcol : ¬col < 15 := by
      intro h
      have : min col 15 = col := by omega
      rw [this] at hμ
      omega
    have hrow : ¬row < 15 := by
      intro h
      have : min row 15 = row := by omega
      rw [this] at hμ
      omega
    rw [travGo.eq_def]
    cases dir <;> simp [hcol, hrow]
  | succ m ih =>
    intro phase g cur board rack row col dir hμ hg hr hb
    rw [travGo.eq_def]
    cases phase with
    | false =>
      simp only [Bool.false_eq_true, dite_false, reduceDIte]
      cases dir with
      | horizontal =>
        by_cases hcol : col < 15
        · simp only [hcol, dite_true, reduceDIte]
          cases hcell : board row col with
          | none => simp
          | some letter =>
            simp only []
            have hlne : letter ≠ hatSym := hb row col letter hcell
            cases hchild : childFind g letter with
            | none => simp
            | some child =>
              simp only []
              have hcn : NoHatTerm child := hg.child hchild hlne
              have h1 : travGo true child (cur ++ [letter]) board rack row (col + 1)
                  Dir.horizontal = [] := by
                refine ih true child _ board rack row (col + 1) Dir.horizontal ?_ hcn hr hb
                simp only [Bool.toNat, cond_true, cond_false] at hμ ⊢
                omega
              have h2 : travGo false g cur board rack row (col + 1) Dir.horizontal = [] := by
                refine ih false g cur board rack row (col + 1) Dir.horizontal ?_ hg hr hb
                simp only [Bool.toNat, cond_true, cond_false] at hμ ⊢
                omega
              simp [h1, h2]
        · simp [hcol]
      | vertical =>
        by_cases hrow : row < 15
        · simp only [hrow, dite_true, reduceDIte]
          cases hcell : board row col with
          | none => simp
          | some letter =>
            simp only []
            have hlne : letter ≠ hatSym := hb row col letter hcell
            cases hchild : childFind g letter with
            | none => simp
            | some child =>
              simp only []
              have hcn : NoHatTerm child := hg.child hchild hlne
              have h1 : travGo true child (cur ++ [letter]) board rack (row + 1) col
                  Dir.vertical = [] := by
                refine ih true child _ board rack (row + 1) col Dir.vertical ?_ hcn hr hb
                simp only [Bool.toNat, cond_true, cond_false] at hμ ⊢
                omega
              have h2 : travGo false g cur board rack (row + 1) col Dir.vertical = [] := by
                refine ih false g cur board rack (row + 1) col Dir.vertical ?_ hg hr hb
                simp only [Bool.toNat, cond_true, cond_false] at hμ ⊢
                omega
              simp [h1, h2]
        · simp [hrow]
    | true =>
      simp only [dite_true, reduceDIte]
      refine List.append_eq_nil.mpr ⟨List.append_eq_nil.mpr ⟨?_, ?_⟩, ?_⟩
      · simp [hg.terminal_false]
      · refine flatMap_eq_nil_of _ _ (fun i _ => ?_)
        have hlen : (rack.eraseIdx i.1).length = rack.length - 1 :=
          List.length_eraseIdx_of_lt i.isLt
        have hpos : 0 < rack.length := Nat.lt_of_le_of_lt (Nat.zero_le _) i.isLt
        have hrerase : ∀ t ∈ rack.eraseIdx i.1, t ≠ hatSym :=
          fun t ht => hr t ((List.eraseIdx_sublist rack i.1).subset ht)
        have hμe : (rack.eraseIdx i.1).length * 62 +
            2 * ((15 - min row 15) + (15 - min col 15)) + Bool.toNat true ≤ m := by
          simp only [Bool.toNat, cond_true, cond_false] at hμ ⊢
          omega
        by_cases htile : rack.get i = '?'
        · simp only [htile, if_true, reduceIte]
          refine flatMap_eq_nil_of _ _ (fun L hL => ?_)
          cases hchild : childFind g L with
          | none => simp
          | some child =>
            have hcn : NoHatTerm child := hg.child hchild (lettersAZ_ne_hat L hL)
            simp only []
            exact ih true child _ board _ row col dir hμe hcn hrerase hb
        · simp only [htile, if_false, reduceIte]
          cases hchild : childFind g (rack.get i) with
          | none => simp
          | some child =>
            have htne : rack.get i ≠ hatSym := hr _ (List.get_mem rack i.1 i.isLt)
            have hcn : NoHatTerm child := hg.child hchild htne
            simp only []
            exact ih true child _ board _ row col dir hμe hcn hrerase hb
      · refine ih false g cur board rack row col dir ?_ hg hr hb
        simp only [Bool.toNat, cond_true, cond_false] at hμ ⊢
        omega

/-- The GADDAG traversal of `main.go` finds no word unless the rack or
the board can supply the separator symbol `^` itself. -/
theorem traverseGADDAG_eq_nil (g : GNode) (cur : List Char) (board : Board)
    (rack : List Char) (row col : Nat) (dir : Dir) (hg : NoHatTerm g)
    (hr : ∀ t ∈ rack, t ≠ hatSym) (hb : WFBoard board) :
    traverseGADDAG g cur board rack row col dir = [] :=
  travGo_eq_nil_aux _ true g cur board rack row col dir le_rfl hg hr hb

theorem generateWordsWithGADDAG_eq_nil (g : GNode) (board : Board) (rack : List Char)
    (row col : Nat) (dir : Dir) (hg : NoHatTerm g) (hr : ∀ t ∈ rack, t ≠ hatSym)
    (hb : WFBoard board) :
    generateWordsWithGADDAG g board rack row col dir = [] := by
  cases dir <;>
    exact flatMap_eq_nil_of _ _ (fun x _ =>
      traverseGADDAG_eq_nil g [] board rack _ _ _ hg hr hb)

theorem generateMovesAtAnchor_eq_nil (g : GNode) (board : Board) (rack : List Char)
    (anchorRow anchorCol : Nat) (seen : List MoveKey) (hg : NoHatTerm g)
    (hr : ∀ t ∈ rack, t ≠ hatSym) (hb : WFBoard board) :
    generateMovesAtAnchor g board rack anchorRow anchorCol seen = ([], seen) := by
  unfold generateMovesAtAnchor
  simp [generateWordsWithGADDAG_eq_nil g board rack anchorRow anchorCol _ hg hr hb]

/-- The central behavioural fact about `generateMoves`: for any GADDAG
satisfying the separator invariant (in particular any GADDAG built by
`buildGADDAG`), any board without `^` cells, and any rack whose
normalized tiles are not `^`, the generator returns no moves at all:
word-end nodes lie strictly behind the separator edge, which the
traversal never crosses. -/
theorem generateMoves_eq_nil (g : GNode) (board : Board) (rack : List Char)
    (hg : NoHatTerm g) (hb : WFBoard board)
    (hr : ∀ t ∈ rack, normTile t ≠ hatSym) :
    generateMoves g board rack = [] := by
  have hra : ∀ t ∈ rack.map normTile, t ≠ hatSym := by
    intro t ht
    obtain ⟨u, hu, rfl⟩ := List.mem_map.mp ht
    exact hr u hu
  unfold generateMoves
  by_cases hempty : boardIsEmpty board
  · simp [hempty, generateMovesAtAnchor_eq_nil g board _ 7 7 [] hg hra hb]
  · simp only [hempty, if_false, reduceIte]
    have hfold : ∀ (anchors : List (Nat × Nat)) (acc : List Move × List MoveKey),
        (anchors.foldl
          (fun (acc : List Move × List MoveKey) a =>
            let res := generateMovesAtAnchor g board (rack.map normTile) a.1 a.2 acc.2
            (acc.1 ++ res.1, res.2)) acc).1 = acc.1 := by
      intro anchors
      induction anchors with
      | nil => intro acc; rfl
      | cons a anchors ih =>
        intro acc
        simp only [List.foldl_cons,
          generateMovesAtAnchor_eq_nil g board _ a.1 a.2 acc.2 hg hra hb]
        simpa using ih acc
    exact hfold _ _

/-! ## Anchor characterization -/

/-- 8-adjacency of two cells, stated without reference to the code's
delta list: the cells differ and each coordinate differs by at most
one. -/
def Adjacent8 (r c r' c' : Nat) : Prop :=
  (r' ≠ r ∨ c' ≠ c) ∧ r' ≤ r + 1 ∧ r ≤ r' + 1 ∧ c' ≤ c + 1 ∧ c ≤ c' + 1

theorem isAnchor_iff (board : Board) (r c : Nat) :
    isAnchor board r c = true ↔
      ∃ r' c', r' < 15 ∧ c' < 15 ∧ Adjacent8 r c r' c' ∧ (board r' c').isSome := by
  rw [isAnchor, List.any_eq_true]
  constructor
  · rintro ⟨d, hd, hcond⟩
    by_cases hP : (0 : Int) ≤ (r : Int) + d.1 ∧ (r : Int) + d.1 < 15 ∧
        (0 : Int) ≤ (c : Int) + d.2 ∧ (c : Int) + d.2 < 15
    · rw [if_pos hP] at hcond
      refine ⟨((r : Int) + d.1).toNat, ((c : Int) + d.2).toNat, ?_, ?_, ?_, hcond⟩
      · omega
      · omega
      · fin_cases hd <;> (unfold Adjacent8; simp_all; omega)
    · rw [if_neg hP] at hcond
      cases hcond
  · rintro ⟨r', c', hr', hc', ⟨hne, h1, h2, h3, h4⟩, hocc⟩
    refine ⟨((r' : Int) - r, (c' : Int) - c), ?_, ?_⟩
    · have hdr : (r' : Int) - r = -1 ∨ (r' : Int) - r = 0 ∨ (r' : Int) - r = 1 := by omega
      have hdc : (c' : Int) - c = -1 ∨ (c' : Int) - c = 0 ∨ (c' : Int) - c = 1 := by omega
      have hnz : ¬((r' : Int) - r = 0 ∧ (c' : Int) - c = 0) := by omega
      rcases hdr with h | h | h <;> rcases hdc with h' | h' | h' <;>
        simp [anchorDeltas, h, h'] <;> omega
    · have he1 : ((r : Int) + ((r' : Int) - r)).toNat = r' := by omega
      have he2 : ((c : Int) + ((c' : Int) - c)).toNat = c' := by omega
      rw [if_pos (by omega)]
      rw [he1, he2]
      exact hocc

theorem mem_findAnchors (board : Board) (r c : Nat) :
    (r, c) ∈ findAnchors board ↔
      r < 15 ∧ c < 15 ∧ (board r c).isNone = true ∧ isAnchor board r c = true := by
  simp only [findAnchors, List.mem_flatMap, List.mem_range]
  constructor
  · rintro ⟨row, hrow, col, hcol, hmem⟩
    by_cases h : (board row col).isNone ∧ isAnchor board row col
    · rw [if_pos h] at hmem
      rcases List.mem_singleton.mp hmem with heq
      cases heq
      exact ⟨hrow, hcol, h.1, h.2⟩
    · rw [if_neg h] at hmem
      cases hmem
  · rintro ⟨hr, hc, hnone, hanch⟩
    exact ⟨r, hr, c, hc, by rw [if_pos ⟨hnone, hanch⟩]; exact List.mem_singleton.mpr rfl⟩

theorem findAnchors_nodup (board : Board) : (findAnchors board).Nodup := by
  unfold findAnchors
  rw [List.nodup_flatMap]
  constructor
  · intro row _
    rw [List.nodup_flatMap]
    constructor
    · intro col _
      split <;> simp
    · refine List.Pairwise.imp ?_ (List.nodup_range 15)
      intro c1 c2 hne
      intro x hx1 hx2
      dsimp only at hx1 hx2
      split at hx1 <;> split at hx2 <;> simp_all
  · refine List.Pairwise.imp ?_ (List.nodup_range 15)
    intro r1 r2 hne
    intro x hx1 hx2
    simp only [List.mem_flatMap, List.mem_range] at hx1 hx2
    obtain ⟨c1, _, hm1⟩ := hx1
    obtain ⟨c2, _, hm2⟩ := hx2
    split at hm1 <;> split at hm2 <;> simp_all

/-! ## createMove invariants -/

/-- The consumed rack tile matches the letter or is the blank, and the
rack is that tile plus the remainder (as a multiset). -/
theorem takeTileB_spec (L : Char) :
    ∀ (rack rack' : List Char) (t : Char),
      takeTileB rack L = some (t, rack') →
      (t = L ∨ t = '?') ∧ rack.Perm (t :: rack') := by
  intro rack
  induction rack with
  | nil => intro rack' t h; simp [takeTileB] at h
  | cons u us ih =>
    intro rack' t h
    by_cases hu : u = L ∨ u = '?'
    · rw [takeTileB, if_pos hu] at h
      cases h
      exact ⟨hu, List.Perm.refl _⟩
    · rw [takeTileB, if_neg hu] at h
      cases htk : takeTileB us L with
      | none => rw [htk] at h; cases h
      | some p =>
        rw [htk] at h
        cases h
        obtain ⟨hp1, hp2⟩ := ih p.2 p.1 (by rw [htk])
        exact ⟨hp1, ((hp2.cons u).trans (List.Perm.swap _ _ _))⟩

/-- The tile symbol a created tile consumed from the rack: the blank if
it is blank-originated, its letter otherwise. -/
def consumedSym (t : Tile) : Char := if t.isBlank then '?' else t.letter

/-- Loop invariant of the tile-building loop of `createMove`: the
consumed rack copy is the created tiles' symbols plus the remainder, and
every created tile is new, sits on an empty board cell, and lies on the
placement line within the board's moving bound. -/
theorem placeTiles_spec (board : Board) (dir : Dir) (row col : Nat) :
    ∀ (word : List Char) (i : Nat) (rack : List Char) (tiles : List Tile)
      (rackRem : List Char),
      placeTiles board dir row col word i rack = some (tiles, rackRem) →
      rack.Perm (tiles.map consumedSym ++ rackRem) ∧
      ∀ t ∈ tiles, t.isNew = true ∧ board t.row t.col = none ∧
        (match dir with
         | .horizontal => t.row = row ∧ t.col < 15
         | .vertical => t.col = col ∧ t.row < 15) := by
  intro word
  induction word with
  | nil =>
    intro i rack tiles rackRem h
    rw [placeTiles] at h
    cases h
    exact ⟨List.Perm.refl _, by intro t ht; cases ht⟩
  | cons L rest ih =>
    intro i rack tiles rackRem h
    rw [placeTiles] at h
    split at h
    · cases h
    · split at h
      case _ hcell =>
        split at h
        case _ t0 rack1 htk =>
          obtain ⟨q, hrec, hq⟩ := Option.map_eq_some'.mp h
          cases hq
          obtain ⟨htk1, htk2⟩ := takeTileB_spec L rack rack1 t0 htk
          obtain ⟨hperm, htiles⟩ := ih (i + 1) rack1 q.1 q.2 hrec
          constructor
          · have hsym : consumedSym
                { row := (cellAt dir row col i).1, col := (cellAt dir row col i).2,
                  letter := L, isNew := true, isBlank := t0 = '?' } = t0 := by
              by_cases hq0 : t0 = '?'
              · simp [consumedSym, hq0]
              · have h1 : t0 = L := htk1.resolve_right hq0
                subst h1
                simp [consumedSym, hq0]
            have hchain : rack.Perm (t0 :: (q.1.map consumedSym ++ q.2)) :=
              htk2.trans (hperm.cons t0)
            simpa [hsym] using hchain
          · intro t ht
            rcases List.mem_cons.mp ht with h1 | h1
            · subst h1
              refine ⟨rfl, hcell, ?_⟩
              cases dir <;> simp_all [cellAt, movingCoord] <;> omega
            · exact htiles t h1
        case _ htk => cases h
      case _ b hcell =>
        exact ih (i + 1) rack tiles rackRem h

/-- Structural guarantees of `createMove`: a returned move has a
non-empty tile list; every tile is new, sits on a cell that is empty on
the input board, and lies on the placement line inside the moving bound;
and the rack splits (as a multiset) into the consumed tile symbols plus
a remainder. -/
theorem createMove_spec (board : Board) (word : List Char) (row col : Nat)
    (dir : Dir) (rack : List Char) (m : Move)
    (h : createMove board word row col dir rack = some m) :
    m.tiles ≠ [] ∧
    (∃ rackRem, rack.Perm (m.tiles.map consumedSym ++ rackRem)) ∧
    ∀ t ∈ m.tiles, t.isNew = true ∧ board t.row t.col = none ∧
      (match dir with
       | .horizontal => t.row = row ∧ t.col < 15
       | .vertical => t.col = col ∧ t.row < 15) := by
  cases dir with
  | horizontal =>
    unfold createMove at h
    dsimp only at h
    split at h
    case _ hpt => cases h
    case _ tiles rackRem hpt =>
      split at h
      · cases h
      case _ hnil =>
        cases h
        obtain ⟨hperm, htiles⟩ :=
          placeTiles_spec board .horizontal row (backScanH board row col)
            word 0 rack tiles rackRem hpt
        exact ⟨hnil, ⟨rackRem, hperm⟩, htiles⟩
  | vertical =>
    unfold createMove at h
    dsimp only at h
    split at h
    case _ hpt => cases h
    case _ tiles rackRem hpt =>
      split at h
      · cases h
      case _ hnil =>
        cases h
        obtain ⟨hperm, htiles⟩ :=
          placeTiles_spec board .vertical (backScanV board col row) col
            word 0 rack tiles rackRem hpt
        exact ⟨hnil, ⟨rackRem, hperm⟩, htiles⟩

/-! ## The `main-for-scrabble.go` request handler -/

/-- A candidate move as surfaced by `main-for-scrabble.go`'s handler:
word, score and board position.  The underlying move enumeration lives
in the external macondo dependency, outside this repository's sources. -/
structure SMove where
  word : List Char
  score : Nat
  row : Nat
  col : Nat
deriving DecidableEq

/-- Score order on handler moves: `a` scores at least as much as `b`. -/
def scoreGE (a b : SMove) : Prop := b.score ≤ a.score

instance : DecidableRel scoreGE := fun a b => Nat.decLe b.score a.score

instance : IsTotal SMove scoreGE := ⟨fun a b => Nat.le_total b.score a.score⟩

instance : IsTrans SMove scoreGE := ⟨fun _ _ _ h1 h2 => Nat.le_trans h2 h1⟩

/-- Modelled from the spec: the ranking performed inside the external
macondo `GenAll` (absent from this repository's sources) — "sort
candidates by total score descending; ties broken by a deterministic
secondary key … so output is reproducible".  A stable sort by
descending score: ties keep a fixed, deterministic order. -/
def rankMoves (ms : List SMove) : List SMove := List.insertionSort scoreGE ms

/-- The JSON request of `main-for-scrabble.go`. -/
structure GenReq where
  rack : List Char
  board : List (List (Option Char))
  topN : Int

/-- The rejection responses of `generateMovesHandler` (HTTP 400s). -/
inductive HandlerErr where
  | rackRequired
  | badRows
  | badCols
deriving DecidableEq

/-- The JSON response of `main-for-scrabble.go`. -/
structure GenResp where
  moves : List SMove
  total : Nat
deriving DecidableEq

/-- `generateMovesHandler` from `main-for-scrabble.go`: validate the
rack and the 15×15 board shape, default `topN` to 10 when
non-positive, and return the first `topN` of the ranked moves together
with the total count.  The enumeration itself (macondo `GenAll`) is
abstracted as the candidate list `cands`; its result order is the
spec-modelled `rankMoves`. -/
def generateMovesHandler (cands : List SMove) (req : GenReq) :
    Except HandlerErr GenResp :=
  if req.rack = [] then .error .rackRequired
  else if req.board.length ≠ 15 then .error .badRows
  else if ¬ (req.board.all (fun rowL => rowL.length = 15)) then .error .badCols
  else
    let topN : Int := if req.topN ≤ 0 then 10 else req.topN
    let moves := rankMoves cands
    .ok { moves := moves.take topN.toNat, total := moves.length }

/-! ## Spec vocabulary for cross words (modelled from the spec) -/

/-- Modelled from the spec: the board with a candidate's new tiles laid
on top (the generator itself never computes this; `buildCrossChecks` in
`main.go` is an empty stub and the `crossChecks` map is never read). -/
def overlayBoard (b : Board) (tiles : List Tile) : Board :=
  fun i j =>
    match tiles.find? (fun t => t.row == i && t.col == j) with
    | some t => some t.letter
    | none => b i j

/-- Modelled from the spec: start index of the maximal occupied run of
`cells` ending at or before index `k`. -/
def runStart (cells : Nat → Option Char) : Nat → Nat
  | 0 => 0
  | k + 1 => if (cells k).isSome then runStart cells k else k + 1

/-- Modelled from the spec: the maximal occupied run of `cells`
(within indices `0..14`) through index `k`. -/
def runThrough (cells : Nat → Option Char) (k : Nat) : List Char :=
  (((List.range 15).drop (runStart cells k)).takeWhile
    (fun j => (cells j).isSome)).filterMap cells

/-- Modelled from the spec: the perpendicular word through cell
`(r, c)`, orthogonal to the placement axis `dir`. -/
def perpWordAt (b : Board) (dir : Dir) (r c : Nat) : List Char :=
  match dir with
  | .horizontal => runThrough (fun i => b i c) r
  | .vertical => runThrough (fun j => b r j) c

/-- Modelled from the spec: the cross-constraint set of an empty cell —
every letter when the cell has no perpendicular neighbours, otherwise
the letters whose substitution makes the perpendicular run a dictionary
word. -/
def crossSet (ws : List (List Char)) (b : Board) (dir : Dir) (r c : Nat) :
    List Char :=
  let hasNeighbor : Bool :=
    match dir with
    | .horizontal =>
        (decide (0 < r) && (b (r - 1) c).isSome) || (b (r + 1) c).isSome
    | .vertical =>
        (decide (0 < c) && (b r (c - 1)).isSome) || (b r (c + 1)).isSome
  if hasNeighbor then
    lettersAZ.filter (fun L =>
      decide (perpWordAt (fun i j => if i = r ∧ j = c then some L else b i j) dir r c ∈ ws))
  else lettersAZ

theorem getD_mem_or_eq {α : Type _} (l : List α) (i : Nat) (d : α) :
    l.getD i d ∈ l ∨ l.getD i d = d := by
  by_cases h : i < l.length
  · left
    rw [List.getD_eq_getElem l d h]
    exact List.getElem_mem h
  · right
    rw [List.getD_eq_getElem?_getD, List.getElem?_eq_none (by omega)]
    rfl

/-- Boards produced by `normalizeBoard` are well formed whenever the raw
grid contains no `^` cell. -/
theorem normalizeBoard_WF (raw : List (List (Option Char)))
    (h : ∀ rowL ∈ raw, ∀ oc ∈ rowL, ∀ c, oc = some c → c ≠ hatSym) :
    WFBoard (normalizeBoard raw) := by
  intro i j c hc
  unfold normalizeBoard at hc
  split at hc
  · rcases getD_mem_or_eq raw i [] with hrow | hrow
    · rcases getD_mem_or_eq (raw.getD i []) j none with hcell | hcell
      · exact h _ hrow _ hcell c hc
      · rw [hcell] at hc; cases hc
    · rw [hrow] at hc; simp [List.getD] at hc
  · cases hc

/-- The all-empty board. -/
def emptyBoardC : Board := fun _ _ => none

theorem emptyBoardC_WF : WFBoard emptyBoardC := by
  intro i j c h
  cases h

/-- Sample word list, GADDAG and rack used by the concrete witnesses. -/
def sampleWords : List (List Char) := [['C', 'A', 'T'], ['A', 'T']]

def sampleGADDAG : GNode := buildGADDAG sampleWords

def sampleRack : List Char := ['C', 'A', 'T']

/-! ## Claim theorems -/

/-- C1: for every well-formed board and rack, every candidate returned
by `generateMoves` has a main word in the dictionary, every
perpendicular word (length ≥ 2) formed through one of its new tiles is
in the dictionary, and no new tile sits on a cell whose cross-constraint
set is empty.  (This holds because the generator provably returns no
candidates at all: terminal GADDAG nodes lie behind the `^` edge, which
the traversal never crosses; the code's own `crossChecks` map is an
empty stub that is never read.) -/
theorem claim_C1_valid_words (ws : List (List Char)) (board : Board)
    (rack : List Char) (hb : WFBoard board)
    (hr : ∀ t ∈ rack, normTile t ≠ hatSym) :
    ∀ m ∈ generateMoves (buildGADDAG ws) board rack,
      m.word ∈ ws ∧
      (∀ t ∈ m.tiles,
        2 ≤ (perpWordAt (overlayBoard board m.tiles) m.dir t.row t.col).length →
        perpWordAt (overlayBoard board m.tiles) m.dir t.row t.col ∈ ws) ∧
      (∀ t ∈ m.tiles, crossSet ws board m.dir t.row t.col ≠ []) := by
  intro m hm
  rw [generateMoves_eq_nil (buildGADDAG ws) board rack
    (buildGADDAG_noHatTerm ws) hb hr] at hm
  cases hm

/-- Witness for C1 at a concrete board and rack. -/
theorem claim_C1_witness :
    WFBoard emptyBoardC ∧ (∀ t ∈ sampleRack, normTile t ≠ hatSym) ∧
    ∀ m ∈ generateMoves (buildGADDAG sampleWords) emptyBoardC sampleRack,
      m.word ∈ sampleWords ∧
      (∀ t ∈ m.tiles,
        2 ≤ (perpWordAt (overlayBoard emptyBoardC m.tiles) m.dir t.row t.col).length →
        perpWordAt (overlayBoard emptyBoardC m.tiles) m.dir t.row t.col ∈ sampleWords) ∧
      (∀ t ∈ m.tiles, crossSet sampleWords emptyBoardC m.dir t.row t.col ≠ []) :=
  ⟨emptyBoardC_WF, by decide,
    claim_C1_valid_words sampleWords emptyBoardC sampleRack emptyBoardC_WF (by decide)⟩

/-- C3: the generator is deterministic — equal boards and racks produce
equal ordered result lists (the embedding is a pure function; the Go
code consults its maps only by key lookup, never by iteration, so map
iteration order cannot influence its output). -/
theorem claim_C3_deterministic (g : GNode) (b1 b2 : Board) (r1 r2 : List Char)
    (hb : b1 = b2) (hr : r1 = r2) :
    generateMoves g b1 r1 = generateMoves g b2 r2 := by
  subst hb
  subst hr
  rfl

/-- Witness for C3 at a concrete board and rack. -/
theorem claim_C3_witness :
    generateMoves sampleGADDAG emptyBoardC sampleRack =
      generateMoves sampleGADDAG emptyBoardC sampleRack :=
  claim_C3_deterministic sampleGADDAG emptyBoardC emptyBoardC sampleRack sampleRack
    rfl rfl

/-- C7: on an empty board every returned candidate covers the center
cell `(7, 7)` (holding vacuously: the generator returns no candidates;
note the code would even re-anchor any found word at the center, since
`createMove` receives the anchor coordinates). -/
theorem claim_C7_center (ws : List (List Char)) (board : Board) (rack : List Char)
    (hb : WFBoard board) (he : boardIsEmpty board = true)
    (hr : ∀ t ∈ rack, normTile t ≠ hatSym) :
    ∀ m ∈ generateMoves (buildGADDAG ws) board rack,
      ∃ t ∈ m.tiles, t.row = 7 ∧ t.col = 7 := by
  intro m hm
  rw [generateMoves_eq_nil (buildGADDAG ws) board rack
    (buildGADDAG_noHatTerm ws) hb hr] at hm
  cases hm

/-- Witness for C7 at a concrete board and rack. -/
theorem claim_C7_witness :
    boardIsEmpty emptyBoardC = true ∧
    ∀ m ∈ generateMoves (buildGADDAG sampleWords) emptyBoardC sampleRack,
      ∃ t ∈ m.tiles, t.row = 7 ∧ t.col = 7 :=
  ⟨by decide,
    claim_C7_center sampleWords emptyBoardC sampleRack emptyBoardC_WF (by decide)
      (by decide)⟩

/-- C4: for every word `W` in the word list and every split index
`i ≤ len W`, the built GADDAG contains the path reading `W[0..i]`
reversed, then the separator, then `W[i..]` forward, ending on a
word-end node; and conversely a node is word-end only if some path to it
is such a split path of a listed word. -/
theorem claim_C4_gaddag_paths (ws : List (List Char)) :
    (∀ w ∈ ws, ∀ i, i ≤ w.length →
      ∃ n, lookupG (buildGADDAG ws) (splitPath w i) = some n ∧ n.terminal = true) ∧
    (∀ p n, lookupG (buildGADDAG ws) p = some n → n.terminal = true →
      ∃ w, w ∈ ws ∧ ∃ i, i ≤ w.length ∧ p = splitPath w i) := by
  constructor
  · intro w hw i hi
    exact buildGADDAG_foldl_self ws emptyGNode w hw i hi
  · intro p n hp ht
    rcases buildGADDAG_foldl_terminal ws emptyGNode p n hp ht with h | ⟨m, hm, hmt⟩
    · exact h
    · have := lookupG_emptyGNode_not_terminal p m hm
      rw [this] at hmt
      cases hmt

/-- Witness for C4 at a concrete word list and split index. -/
theorem claim_C4_witness :
    ∃ n, lookupG (buildGADDAG sampleWords) (splitPath ['A', 'T'] 1) = some n ∧
      n.terminal = true :=
  (claim_C4_gaddag_paths sampleWords).1 ['A', 'T'] (by decide) 1 (by decide)

/-- C6: `findAnchors` returns exactly the in-bounds empty cells that are
8-adjacent to at least one occupied cell, with no duplicates; and on an
empty board the anchor set actually used by `generateMoves` is exactly
the single center cell `(7, 7)`. -/
theorem claim_C6_anchors (board : Board) (g : GNode) (rack : List Char) :
    (∀ r c, (r, c) ∈ findAnchors board ↔
      r < 15 ∧ c < 15 ∧ board r c = none ∧
        ∃ r' c', r' < 15 ∧ c' < 15 ∧ Adjacent8 r c r' c' ∧
          (board r' c').isSome = true) ∧
    (findAnchors board).Nodup ∧
    (boardIsEmpty board = true →
      generateMoves g board rack =
        (generateMovesAtAnchor g board (rack.map normTile) 7 7 []).1) := by
  refine ⟨fun r c => ?_, findAnchors_nodup board, fun he => ?_⟩
  · simp only [mem_findAnchors, isAnchor_iff, Option.isNone_iff_eq_none]
  · simp [generateMoves, he]

/-- Witness for C6 at a concrete empty board. -/
theorem claim_C6_witness :
    boardIsEmpty emptyBoardC = true ∧
    generateMoves sampleGADDAG emptyBoardC sampleRack =
      (generateMovesAtAnchor sampleGADDAG emptyBoardC (sampleRack.map normTile)
        7 7 []).1 :=
  ⟨by decide, (claim_C6_anchors emptyBoardC sampleGADDAG sampleRack).2.2 (by decide)⟩

/-- The concrete move used by the `createMove` witnesses: "AT" placed
horizontally at the center of the empty board. -/
def sampleMove : Move :=
  { word := ['A', 'T'], score := 4,
    tiles := [{ row := 7, col := 7, letter := 'A', isNew := true, isBlank := false },
              { row := 7, col := 8, letter := 'T', isNew := true, isBlank := false }],
    dir := .horizontal, startRow := 7, startCol := 7 }

/-- C8: every returned candidate's placed tiles lie inside the board and
only on cells that were empty (so nothing is overwritten), and its rack
consumption is sound — the consumed tile symbols together with a
remainder are a permutation of the rack, so no tile is used twice and no
more tiles are consumed than available.  The first part is about the
full generator (which returns no candidates for well-formed inputs);
the second part establishes the same guarantees non-vacuously for
`createMove`, the only constructor of returned moves. -/
theorem claim_C8_bounds_rack :
    (∀ (ws : List (List Char)) (board : Board) (rack : List Char),
      WFBoard board → (∀ t ∈ rack, normTile t ≠ hatSym) →
      ∀ m ∈ generateMoves (buildGADDAG ws) board rack,
        (∀ t ∈ m.tiles, t.row < 15 ∧ t.col < 15 ∧ board t.row t.col = none) ∧
        m.tiles.length ≤ rack.length) ∧
    (∀ (board : Board) (word : List Char) (row col : Nat) (dir : Dir)
        (rack : List Char) (m : Move),
      row < 15 → col < 15 →
      createMove board word row col dir rack = some m →
      (∀ t ∈ m.tiles, t.row < 15 ∧ t.col < 15 ∧ board t.row t.col = none) ∧
      (∃ rackRem, rack.Perm (m.tiles.map consumedSym ++ rackRem)) ∧
      m.tiles.length ≤ rack.length) := by
  constructor
  · intro ws board rack hb hr m hm
    rw [generateMoves_eq_nil (buildGADDAG ws) board rack
      (buildGADDAG_noHatTerm ws) hb hr] at hm
    cases hm
  · intro board word row col dir rack m hrow hcol h
    obtain ⟨hne, ⟨rackRem, hperm⟩, htiles⟩ := createMove_spec board word row col dir rack m h
    have hlen : m.tiles.length ≤ rack.length := by
      have := hperm.length_eq
      rw [List.length_append, List.length_map] at this
      omega
    refine ⟨fun t ht => ?_, ⟨rackRem, hperm⟩, hlen⟩
    obtain ⟨h1, h2, h3⟩ := htiles t ht
    cases dir with
    | horizontal =>
      simp only at h3
      exact ⟨h3.1 ▸ hrow, h3.2, h2⟩
    | vertical =>
      simp only at h3
      exact ⟨h3.2, h3.1 ▸ hcol, h2⟩

/-- Witness for C8 at a concrete successful `createMove`. -/
theorem claim_C8_witness :
    (∀ t ∈ sampleMove.tiles,
      t.row < 15 ∧ t.col < 15 ∧ emptyBoardC t.row t.col = none) ∧
    (∃ rackRem, List.Perm ['A', 'T'] (sampleMove.tiles.map consumedSym ++ rackRem)) ∧
    sampleMove.tiles.length ≤ (['A', 'T'] : List Char).length :=
  claim_C8_bounds_rack.2 emptyBoardC ['A', 'T'] 7 7 .horizontal ['A', 'T'] sampleMove
    (by decide) (by decide) (by decide)

/-- C10: every returned move has a non-empty tile list, and each of its
tiles is marked new and sits on a cell that was empty on the input
board.  First part for the full generator (vacuously — it returns no
moves on well-formed inputs), second part non-vacuously for
`createMove`, which constructs every returned move and explicitly
rejects tile-less results. -/
theorem claim_C10_new_tiles :
    (∀ (ws : List (List Char)) (board : Board) (rack : List Char),
      WFBoard board → (∀ t ∈ rack, normTile t ≠ hatSym) →
      ∀ m ∈ generateMoves (buildGADDAG ws) board rack,
        m.tiles ≠ [] ∧ ∀ t ∈ m.tiles, t.isNew = true ∧ board t.row t.col = none) ∧
    (∀ (board : Board) (word : List Char) (row col : Nat) (dir : Dir)
        (rack : List Char) (m : Move),
      createMove board word row col dir rack = some m →
      m.tiles ≠ [] ∧ ∀ t ∈ m.tiles, t.isNew = true ∧ board t.row t.col = none) := by
  constructor
  · intro ws board rack hb hr m hm
    rw [generateMoves_eq_nil (buildGADDAG ws) board rack
      (buildGADDAG_noHatTerm ws) hb hr] at hm
    cases hm
  · intro board word row col dir rack m h
    obtain ⟨hne, _, htiles⟩ := createMove_spec board word row col dir rack m h
    exact ⟨hne, fun t ht => ⟨(htiles t ht).1, (htiles t ht).2.1⟩⟩

/-- Witness for C10 at a concrete successful `createMove`. -/
theorem claim_C10_witness :
    sampleMove.tiles ≠ [] ∧
    ∀ t ∈ sampleMove.tiles, t.isNew = true ∧ emptyBoardC t.row t.col = none :=
  claim_C10_new_tiles.2 emptyBoardC ['A', 'T'] 7 7 .horizontal ['A', 'T'] sampleMove
    (by decide)

/-- The rack of claim C5: the wildcard plus the six letters completing
the 7-letter dictionary word "CLASSIC". -/
def rackC5 : List Char := ['*', 'C', 'L', 'A', 'S', 'S', 'I']

/-- The word of claim C5. -/
def wordC5 : List Char := ['C', 'L', 'A', 'S', 'S', 'I', 'C']

/-- The seven tiles of "CLASSIC" laid horizontally through the center
(row 7, columns 4–10), the final `C` being blank-originated. -/
def tilesC5 : List Tile :=
  [{ row := 7, col := 4, letter := 'C', isNew := true, isBlank := false },
   { row := 7, col := 5, letter := 'L', isNew := true, isBlank := false },
   { row := 7, col := 6, letter := 'A', isNew := true, isBlank := false },
   { row := 7, col := 7, letter := 'S', isNew := true, isBlank := false },
   { row := 7, col := 8, letter := 'S', isNew := true, isBlank := false },
   { row := 7, col := 9, letter := 'I', isNew := true, isBlank := false },
   { row := 7, col := 10, letter := 'C', isNew := true, isBlank := true }]

/-- C5 (code-bug evaluation): with the wildcard rack spelling the
7-letter word "CLASSIC", the generator returns no candidate at all; and
`calculateScore` on the corresponding placement yields 22 — the
blank-originated `C` contributes its full 3 points and no 50-point
all-tiles bonus exists — instead of the 66 the claim requires
((11 − 3) × 2 + 50). -/
theorem claim_C5_blank_scoring_eval :
    generateMoves (buildGADDAG [wordC5]) emptyBoardC rackC5 = [] ∧
    calculateScore emptyBoardC tilesC5 7 4 .horizontal = 22 ∧
    calculateScore emptyBoardC tilesC5 7 4 .horizontal ≠ 66 := by
  refine ⟨?_, by decide, by decide⟩
  exact generateMoves_eq_nil _ _ _ (buildGADDAG_noHatTerm _) emptyBoardC_WF (by decide)

/-- C2: a successful handler response is sorted by descending total
score and consists of exactly the first `topN` (default 10 when the
request value is non-positive) moves of the deterministic ranked order,
with the total reporting the full count. -/
theorem claim_C2_ranking (cands : List SMove) (req : GenReq) (resp : GenResp)
    (h : generateMovesHandler cands req = .ok resp) :
    resp.moves.Sorted scoreGE ∧
    resp.moves = (rankMoves cands).take
      ((if req.topN ≤ 0 then (10 : Int) else req.topN).toNat) ∧
    resp.moves.length ≤ ((if req.topN ≤ 0 then (10 : Int) else req.topN)).toNat ∧
    resp.total = (rankMoves cands).length := by
  unfold generateMovesHandler at h
  split at h
  · cases h
  · split at h
    · cases h
    · split at h
      · cases h
      · cases h
        refine ⟨?_, rfl, ?_, rfl⟩
        · exact List.Pairwise.sublist (List.take_sublist _ _)
            (List.sorted_insertionSort scoreGE cands)
        · exact List.length_take_le _ _

/-- Concrete candidates, request and response of the C2 witness. -/
def cands0 : List SMove :=
  [{ word := ['A', 'T'], score := 2, row := 7, col := 7 },
   { word := ['C', 'A', 'T'], score := 6, row := 7, col := 7 }]

def grid15 : List (List (Option Char)) := List.replicate 15 (List.replicate 15 none)

def req0 : GenReq := { rack := ['A'], board := grid15, topN := 1 }

def resp0 : GenResp :=
  { moves := [{ word := ['C', 'A', 'T'], score := 6, row := 7, col := 7 }], total := 2 }

/-- Witness for C2 at a concrete request. -/
theorem claim_C2_witness :
    resp0.moves.Sorted scoreGE ∧
    resp0.moves = (rankMoves cands0).take
      ((if req0.topN ≤ 0 then (10 : Int) else req0.topN).toNat) ∧
    resp0.moves.length ≤ ((if req0.topN ≤ 0 then (10 : Int) else req0.topN)).toNat ∧
    resp0.total = (rankMoves cands0).length :=
  claim_C2_ranking cands0 req0 resp0 (by rfl)

/-- A malformed (1×1) grid. -/
def badGrid : List (List (Option Char)) := [[some 'A']]

/-- C9 counterexample: `main.go`'s core performs no shape check — on the
1×1 grid `badGrid` it silently normalizes (keeping the one cell, padding
the rest empty) and computes a normal move result, instead of failing
fast with a shape error. -/
theorem claim_C9_counterexample :
    badGrid.length ≠ 15 ∧
    normalizeBoard badGrid 0 0 = some 'A' ∧
    normalizeBoard badGrid 1 1 = none ∧
    handleGenerateMovesCore (buildGADDAG sampleWords) badGrid sampleRack = [] := by
  refine ⟨by decide, by decide, by decide, ?_⟩
  unfold handleGenerateMovesCore
  exact generateMoves_eq_nil _ _ _ (buildGADDAG_noHatTerm _)
    (normalizeBoard_WF badGrid (by decide)) (by decide)

/-- C9 (amended): the `main-for-scrabble.go` handler rejects any
non-15×15 grid before any move computation (the rejection is independent
of the candidate moves), while `main.go`'s `normalizeBoard` never
rejects: it crops oversized grids to 15×15 and pads undersized ones with
empty cells, and generation proceeds on the adjusted grid. -/
theorem claim_C9_amended :
    (∀ (cands : List SMove) (req : GenReq),
      (req.board.length ≠ 15 ∨ ∃ rowL ∈ req.board, rowL.length ≠ 15) →
      ∃ e, generateMovesHandler cands req = .error e) ∧
    (∀ (raw : List (List (Option Char))) (i j : Nat), 15 ≤ i ∨ 15 ≤ j →
      normalizeBoard raw i j = none) ∧
    (∀ (raw : List (List (Option Char))) (i j : Nat), i < 15 → j < 15 →
      raw.length ≤ i → normalizeBoard raw i j = none) := by
  refine ⟨?_, ?_, ?_⟩
  · intro cands req hbad
    unfold generateMovesHandler
    by_cases h1 : req.rack = []
    · exact ⟨.rackRequired, by rw [if_pos h1]⟩
    · rw [if_neg h1]
      by_cases h2 : req.board.length ≠ 15
      · exact ⟨.badRows, by rw [if_pos h2]⟩
      · rw [if_neg h2]
        have h3 : ¬ (req.board.all (fun rowL => rowL.length = 15) = true) := by
          rcases hbad with hb | ⟨rowL, hmem, hlen⟩
          · exact absurd hb h2
          · intro hall
            rw [List.all_eq_true] at hall
            exact hlen (by simpa using hall rowL hmem)
        exact ⟨.badCols, by rw [if_pos h3]⟩
  · intro raw i j hij
    unfold normalizeBoard
    rw [if_neg]
    omega
  · intro raw i j hi hj hlen
    unfold normalizeBoard
    rw [if_pos ⟨hi, hj⟩]
    have hrow : raw.getD i [] = [] := by
      rw [List.getD_eq_getElem?_getD, List.getElem?_eq_none hlen]
      rfl
    rw [hrow]
    rfl

/-- Witness for C9's amended claim at a concrete malformed request. -/
theorem claim_C9_witness :
    ∃ e, generateMovesHandler []
      { rack := ['A'], board := badGrid, topN := 1 } = .error e :=
  claim_C9_amended.1 [] { rack := ['A'], board := badGrid, topN := 1 }
    (Or.inl (by decide))
